import Mathlib

/-!
Shallow embedding of the stacked-PR viewer CLI (`src/main.rs`) and proofs
about its specification claims.

Strings are modelled as `List Char`.  The three regexes of the source
(`extract_dependencies`, `extract_stack_info`, `parse_github_url`) are
embedded as deterministic scanners: each quantified sub-pattern of those
regexes is a character class disjoint from the character that must follow
it, so the leftmost-first greedy semantics of the `regex` crate reduces to
"take the maximal run of the class, then require the follower".  `\d` and
`\s` are modelled as their ASCII parts and `(?i)` as ASCII lower-casing,
matching the crate's behaviour on ASCII input (all inputs considered by
the claims are ASCII).
-/

namespace StackPR

/-- ASCII whitespace, the ASCII part of the regex class `\s`. -/
def isWs (c : Char) : Bool :=
  c = ' ' || c = '\t' || c = '\n' || c = '\r' || c = '\x0b' || c = '\x0c'

/-- Strip a case-insensitive literal (given lower-case) from the front of the
input, returning the rest on success.  Models a `(?i)` literal of the regexes. -/
def stripCi : List Char → List Char → Option (List Char)
  | [], l => some l
  | _ :: _, [] => none
  | p :: ps, c :: cs => if c.toLower = p then stripCi ps cs else none

/-- Strip a case-sensitive literal from the front of the input. -/
def stripLit : List Char → List Char → Option (List Char)
  | [], l => some l
  | _ :: _, [] => none
  | p :: ps, c :: cs => if c = p then stripLit ps cs else none

/-- Numeric value of a digit string, as `str::parse` computes it. -/
def digitsVal (ds : List Char) : Nat :=
  ds.foldl (fun a c => a * 10 + (c.toNat - 48)) 0

/-- `str::parse::<u32>` on a non-empty ASCII digit string: fails (overflow)
iff the value does not fit in a `u32`. -/
def parseU32 (ds : List Char) : Option Nat :=
  if digitsVal ds < 4294967296 then some (digitsVal ds) else none

/-! ## `extract_dependencies` (src/main.rs lines 70-90)

The six patterns all have the shape
`(?i)<stem>s?\s+(on\s+)?#(\d+)`: a literal stem, for three of them an
optional `s`, one-or-more whitespace, for four of them the literal `on`
plus more whitespace, then `#` and a captured digit run. -/

/-- One of the six dependency-phrase regexes of `extract_dependencies`. -/
structure DepPat where
  stem : List Char
  optS : Bool
  hasOn : Bool

/-- Consume one-or-more whitespace characters (the regex `\s+`, maximal run;
deterministic because every follower in the patterns is a non-whitespace
character). -/
def dropWsPlus : List Char → Option (List Char)
  | [] => none
  | c :: cs => if isWs c then some (cs.dropWhile isWs) else none

/-- The optional `s?` of `builds?`/`requires?`/`follows?`: the greedy branch
taking `s` survives only when whitespace follows (the next pattern atom is
`\s+`), otherwise the engine backtracks to the empty branch. -/
def dropOptS (l : List Char) : List Char :=
  match l with
  | c :: c2 :: rest => if c.toLower = 's' && isWs c2 then c2 :: rest else l
  | _ => l

/-- Match one dependency pattern anchored at the head of `l`; returns the
captured digit run and the input after the whole match. -/
def matchDepAt (p : DepPat) (l : List Char) : Option (List Char × List Char) := do
  let r1 ← stripCi p.stem l
  let r2 := if p.optS then dropOptS r1 else r1
  let r3 ← dropWsPlus r2
  let r4 ← if p.hasOn then do
      let a ← stripCi ['o', 'n'] r3
      dropWsPlus a
    else pure r3
  match r4 with
  | '#' :: r5 =>
    let ds := r5.takeWhile Char.isDigit
    if ds.isEmpty then none else some (ds, r5.dropWhile Char.isDigit)
  | _ => none

/-- `Regex::captures_iter` for one dependency pattern: non-overlapping
leftmost matches, resuming after each match.  `fuel` bounds the scan; the
callers pass `length + 1`, which suffices since every step consumes at
least one character. -/
def findDeps (p : DepPat) : Nat → List Char → List (List Char)
  | 0, _ => []
  | _, [] => []
  | fuel + 1, c :: rest =>
    match matchDepAt p (c :: rest) with
    | some (ds, after) => ds :: findDeps p fuel after
    | none => findDeps p fuel rest

/-- The six patterns, in the order of the `patterns` array of the source. -/
def depPats : List DepPat :=
  [⟨"depends".toList, false, true⟩,
   ⟨"based".toList, false, true⟩,
   ⟨"stacked".toList, false, true⟩,
   ⟨"build".toList, true, true⟩,
   ⟨"require".toList, true, false⟩,
   ⟨"follow".toList, true, false⟩]

/-- `StackVisualizer::extract_dependencies`: for each pattern in order, all
its matches in document order; captures that overflow `u32` are skipped. -/
def extract_dependencies (body : List Char) : List Nat :=
  depPats.foldl (fun acc p => acc ++ (findDeps p (body.length + 1) body).filterMap parseU32) []

/-! ## `extract_stack_info` (src/main.rs lines 92-108)

The section regex is `(?i)stack:\s*\n((?:\s*-\s*#\d+[^\n]*\n?)*)`. -/

/-- The greedy `\s*\n` after `stack:`: the quantifier keeps the longest
whitespace run that still leaves a `\n` to consume, i.e. everything up to
and including the last newline of the maximal whitespace run. -/
def wsToLastNl (l : List Char) : Option (List Char) :=
  let run := l.takeWhile isWs
  let rest := l.dropWhile isWs
  if '\n' ∈ run then some ((run.reverse.takeWhile (· ≠ '\n')).reverse ++ rest) else none

/-- One iteration of the list-item group `\s*-\s*#\d+[^\n]*\n?`; returns the
consumed characters and the rest. -/
def stackItem (l : List Char) : Option (List Char × List Char) :=
  let w1 := l.takeWhile isWs
  match l.dropWhile isWs with
  | '-' :: r2 =>
    let w2 := r2.takeWhile isWs
    match r2.dropWhile isWs with
    | '#' :: r3 =>
      let ds := r3.takeWhile Char.isDigit
      if ds.isEmpty then none
      else
        let r4 := r3.dropWhile Char.isDigit
        let tl := r4.takeWhile (· ≠ '\n')
        match r4.dropWhile (· ≠ '\n') with
        | '\n' :: _ => some (w1 ++ '-' :: w2 ++ '#' :: ds ++ tl ++ ['\n'],
            (r4.dropWhile (· ≠ '\n')).tail)
        | _ => some (w1 ++ '-' :: w2 ++ '#' :: ds ++ tl, r4.dropWhile (· ≠ '\n'))
    | _ => none
  | _ => none

/-- The starred item group: iterate `stackItem` greedily, concatenating what
it consumes (capture group 1 of the section regex). -/
def stackItems : Nat → List Char → List Char
  | 0, _ => []
  | fuel + 1, l =>
    match stackItem l with
    | some (cs, rest) => cs ++ stackItems fuel rest
    | none => []

/-- Match the whole section regex anchored at the head of `l`, returning the
capture (the item block). -/
def matchStackAt (l : List Char) : Option (List Char) := do
  let r1 ← stripCi "stack:".toList l
  let r2 ← wsToLastNl r1
  pure (stackItems (r2.length + 1) r2)

/-- `Regex::captures`: leftmost match of the section regex. -/
def findStackSection : Nat → List Char → Option (List Char)
  | 0, _ => none
  | _, [] => none
  | fuel + 1, c :: rest =>
    match matchStackAt (c :: rest) with
    | some s => some s
    | none => findStackSection fuel rest

/-- `str::lines`: split on `\n`, dropping one trailing `\r` per line and no
trailing empty line.  `fuel` bounds the loop; callers pass `length + 1`. -/
def rustLinesGo : Nat → List Char → List (List Char)
  | 0, _ => []
  | _, [] => []
  | fuel + 1, c :: cs =>
    let l := c :: cs
    let line := l.takeWhile (· ≠ '\n')
    let strip := if line.getLast? = some '\r' then line.dropLast else line
    match l.dropWhile (· ≠ '\n') with
    | [] => [strip]
    | _ :: rest => strip :: rustLinesGo fuel rest

/-- `str::lines` with sufficient fuel (each step consumes at least one
character). -/
def rustLines (l : List Char) : List (List Char) :=
  rustLinesGo (l.length + 1) l

/-- The per-line regex `#(\d+)` of `extract_stack_info`: leftmost `#`
followed by at least one digit; captures the maximal digit run. -/
def findHashNum : Nat → List Char → Option (List Char)
  | 0, _ => none
  | _, [] => none
  | fuel + 1, '#' :: rest =>
    let ds := rest.takeWhile Char.isDigit
    if ds.isEmpty then findHashNum fuel rest else some ds
  | fuel + 1, _ :: rest => findHashNum fuel rest

/-- `StackVisualizer::extract_stack_info`: find the stack section, read one
`#N` per line of it (skipping lines without one and `u32` overflows), and
return the list only when it has more than one entry. -/
def extract_stack_info (body : List Char) : Option (List Nat) := do
  let sec ← findStackSection (body.length + 1) body
  let nums := (rustLines sec).filterMap
    (fun line => (findHashNum (line.length + 1) line).bind parseU32)
  if nums.length > 1 then pure nums else none

/-! ## Data model and the Request Source

A `World` packages the external `gh` collaborator for one run: fetching a
record by number and listing the open numbers.  `none` models a failed
invocation.  The in-memory cache of the source is semantically transparent
here because the collaborator is modelled as a pure function (one run, a
deterministic source). -/

/-- The `PullRequest` record of the source (src/main.rs lines 16-26). -/
structure PullRequest where
  number : Nat
  title : List Char
  body : List Char
  state : List Char
  base_ref : List Char
  head_ref : List Char
deriving DecidableEq

/-- The external Request Source for one run. -/
structure World where
  fetch : Nat → Option PullRequest
  listOpen : Option (List Nat)

/-- Result of a fallible traversal: `out` is fuel exhaustion (an artifact of
the embedding, the Rust recursion has no such bound), `err` is a Rust `Err`. -/
inductive TRes (α : Type) where
  | out
  | err
  | ok (a : α)
deriving DecidableEq

/-- Sequencing with the `?` operator: `out` and `err` propagate. -/
def tbind : TRes α → (α → TRes β) → TRes β
  | .out, _ => .out
  | .err, _ => .err
  | .ok a, k => k a

/-- `StackVisualizer::find_related_by_branch` (lines 110-117): open numbers
other than the target's, fetched (failures skipped), kept when adjacent to
the target by base/head branch, mapped back to their `number` field. -/
def find_related_by_branch (w : World) (target : PullRequest) (all_prs : List Nat) : List Nat :=
  ((((all_prs.filter (fun n => decide (n ≠ target.number))).filterMap w.fetch).filter
    (fun pr => decide (pr.base_ref = target.head_ref ∨ target.base_ref = pr.head_ref))).map
      (·.number))

/-! ## Traversals (lines 172-201)

The Rust recursions are bounded only by the growth of the visited set; the
embedding adds a `fuel` parameter that every call decrements, with `TRes.out`
for exhaustion.  The visited `HashSet` is modelled as a `List Nat` (only
membership and insertion are used). -/

mutual

/-- `StackVisualizer::traverse_branches` (lines 172-181): the `Err` of a
failing fetch propagates through `?` (`Option.elim`'s first branch). -/
def traverse_branches (w : World) (all_prs : List Nat) :
    Nat → Nat → List Nat → List PullRequest → TRes (List Nat × List PullRequest)
  | 0, _, _, _ => .out
  | fuel + 1, num, visited, stack =>
    if num ∈ visited then .ok (visited, stack)
    else
      (w.fetch num).elim .err fun pr =>
        traverse_branches_list w all_prs fuel (find_related_by_branch w pr all_prs)
          (num :: visited) (stack ++ [pr])

/-- The `for r in related` loop of `traverse_branches`, with `?` on each call. -/
def traverse_branches_list (w : World) (all_prs : List Nat) :
    Nat → List Nat → List Nat → List PullRequest → TRes (List Nat × List PullRequest)
  | _, [], visited, stack => .ok (visited, stack)
  | 0, _ :: _, _, _ => .out
  | fuel + 1, r :: rs, visited, stack =>
    tbind (traverse_branches w all_prs fuel r visited stack) fun p =>
      traverse_branches_list w all_prs fuel rs p.1 p.2

end

mutual

/-- `StackVisualizer::traverse_deps` (lines 183-201). -/
def traverse_deps (w : World) (all_prs : List Nat) :
    Nat → Nat → List Nat → List PullRequest → TRes (List Nat × List PullRequest)
  | 0, _, _, _ => .out
  | fuel + 1, num, visited, stack =>
    if num ∈ visited then .ok (visited, stack)
    else
      (w.fetch num).elim .err fun pr =>
        tbind (traverse_deps_list w all_prs fuel (extract_dependencies pr.body)
            (num :: visited) (stack ++ [pr])) fun p =>
          traverse_deps_others w all_prs fuel all_prs num p.1 p.2

/-- The `for dep in deps` loop of `traverse_deps`: a fetch failure inside the
recursive call propagates as an error through `?`. -/
def traverse_deps_list (w : World) (all_prs : List Nat) :
    Nat → List Nat → List Nat → List PullRequest → TRes (List Nat × List PullRequest)
  | _, [], visited, stack => .ok (visited, stack)
  | 0, _ :: _, _, _ => .out
  | fuel + 1, d :: ds, visited, stack =>
    tbind (traverse_deps w all_prs fuel d visited stack) fun p =>
      traverse_deps_list w all_prs fuel ds p.1 p.2

/-- The `for &other in all_prs` loop of `traverse_deps`: fetch failures are
skipped (`if let Ok`), recursion only on requests whose body references
the current number. -/
def traverse_deps_others (w : World) (all_prs : List Nat) :
    Nat → List Nat → Nat → List Nat → List PullRequest → TRes (List Nat × List PullRequest)
  | _, [], _, visited, stack => .ok (visited, stack)
  | 0, _ :: _, _, _, _ => .out
  | fuel + 1, o :: os, num, visited, stack =>
    if o = num then traverse_deps_others w all_prs fuel os num visited stack
    else
      (w.fetch o).elim (traverse_deps_others w all_prs fuel os num visited stack) fun opr =>
        if num ∈ extract_dependencies opr.body then
          tbind (traverse_deps w all_prs fuel o visited stack) fun p =>
            traverse_deps_others w all_prs fuel os num p.1 p.2
        else traverse_deps_others w all_prs fuel os num visited stack

end

/-! ## The explicit-declaration strategy's expansion and the sorts -/

/-- Body of the inner `for related` loop of strategy 1 (lines 130-136): a
fresh number enters the visited list unconditionally, the stack only when
its fetch succeeds. -/
def expand_related (w : World) (st : List Nat × List PullRequest) (r : Nat) :
    List Nat × List PullRequest :=
  if r ∈ st.1 then st
  else
    match w.fetch r with
    | none => (r :: st.1, st.2)
    | some pr => (r :: st.1, st.2 ++ [pr])

/-- The expansion pass of strategy 1 (lines 127-138): `for pr in
stack.clone()` iterates the snapshot `stack0` only, threading the visited
list (initially the numbers of `stack0`) and the growing stack. -/
def expand_stack (w : World) (all_prs : List Nat) (stack0 : List PullRequest) :
    List PullRequest :=
  (stack0.foldl (fun st pr => (find_related_by_branch w pr all_prs).foldl (expand_related w) st)
    (stack0.map (·.number), stack0)).2

/-- Stable insertion into an already key-sorted list: the new element goes
after every element of key less than or equal to its own. -/
def insertStable (key : PullRequest → Nat) (x : PullRequest) :
    List PullRequest → List PullRequest
  | [] => [x]
  | y :: ys => if key y ≤ key x then y :: insertStable key x ys else x :: y :: ys

/-- `Vec::sort_by_key`, a stable sort.  A stable sort's output (a permutation
sorted by key, with equal-key elements in their original relative order) is
unique, so this insertion sort agrees with the source's merge-based one. -/
def sort_by_key (key : PullRequest → Nat) (l : List PullRequest) : List PullRequest :=
  l.foldl (fun acc x => insertStable key x acc) []

/-- Sort key of line 161: base branch `main` first. -/
def mainFirstKey (pr : PullRequest) : Nat :=
  if pr.base_ref = "main".toList then 0 else 1

/-- Sort key of line 168: count of dependency phrases in the body. -/
def depCountKey (pr : PullRequest) : Nat :=
  (extract_dependencies pr.body).length

/-- The strategy-2 scan (lines 143-154): first open number besides the start
whose fetched body declares a stack section containing the start. -/
def find_declared_elsewhere (w : World) : List Nat → Nat → Option (List Nat)
  | [], _ => none
  | n :: ns, start_pr =>
    if n = start_pr then find_declared_elsewhere w ns start_pr
    else
      (w.fetch n).elim (find_declared_elsewhere w ns start_pr) fun pr =>
        (extract_stack_info pr.body).elim (find_declared_elsewhere w ns start_pr) fun sps =>
          if start_pr ∈ sps then some sps else find_declared_elsewhere w ns start_pr

/-- `StackVisualizer::build_stack_graph` (lines 119-170).  Note the two `?`
of the source: line 120 (fetch of the start, `err` when it fails) and line
142 (the open listing when the start body has no stack section). -/
def build_stack_graph (w : World) (fuel : Nat) (start_pr : Nat) : TRes (List PullRequest) :=
  (w.fetch start_pr).elim .err fun start =>
    (extract_stack_info start.body).elim
      (w.listOpen.elim .err fun all_prs =>
        (find_declared_elsewhere w all_prs start_pr).elim
          (tbind (traverse_branches w all_prs fuel start_pr [] []) fun p =>
            if p.2.length > 1 then .ok (sort_by_key mainFirstKey p.2)
            else
              tbind (traverse_deps w all_prs fuel start_pr [] []) fun q =>
                .ok (sort_by_key depCountKey q.2))
          fun sps => .ok (sps.filterMap w.fetch))
      fun stack_prs =>
        w.listOpen.elim (.ok (stack_prs.filterMap w.fetch)) fun all_prs =>
          .ok (expand_stack w all_prs (stack_prs.filterMap w.fetch))

/-- Build a `World` from a finite table of records and a listing. -/
def World.ofList (ps : List (Nat × PullRequest)) (openIds : Option (List Nat)) : World :=
  { fetch := fun n => (ps.find? (fun p => p.1 = n)).map (·.2), listOpen := openIds }

/-! ## `parse_github_url` (src/main.rs lines 218-222)

The regex is `github\.com/([^/]+)/([^/]+)/pull/(\d+)`, unanchored.  Each
`[^/]+`/`\d+` is a maximal run of a class disjoint from the following
literal character, so matching at a fixed position is deterministic; the
leftmost-match search tries successive start positions. -/

/-- The literal `github.com/` of the URL regex. -/
def ghLit : List Char := "github.com/".toList

/-- The literal `/pull/` of the URL regex. -/
def pullLit : List Char := "/pull/".toList

/-- Require a leading `/` (the literal between the owner and repo runs). -/
def chompSlash : List Char → Option (List Char)
  | c :: r => if c = '/' then some r else none
  | [] => none

/-- Match the URL regex anchored at the head of `l`, returning the three
captures (owner, repo, digit run). -/
def matchGhAt (l : List Char) : Option (List Char × List Char × List Char) :=
  (stripLit ghLit l).bind fun r1 =>
    let o := r1.takeWhile (· ≠ '/')
    if o.isEmpty then none
    else
      (chompSlash (r1.dropWhile (· ≠ '/'))).bind fun r3 =>
        let rp := r3.takeWhile (· ≠ '/')
        if rp.isEmpty then none
        else
          (stripLit pullLit (r3.dropWhile (· ≠ '/'))).bind fun r5 =>
            let ds := r5.takeWhile Char.isDigit
            if ds.isEmpty then none else some (o, rp, ds)

/-- Leftmost match of the URL regex: try each start position left to right. -/
def findGh : List Char → Option (List Char × List Char × List Char)
  | [] => none
  | c :: rest => (matchGhAt (c :: rest)).elim (findGh rest) some

/-- Error taxonomy of `parse_github_url`: the `context("invalid GitHub PR
URL format")` error when the regex does not match, and the propagated
`ParseIntError` when the captured number overflows `u32`. -/
inductive UrlErr where
  | invalidFormat
  | numberOverflow
deriving DecidableEq

/-- Equality of `Except` results is decidable componentwise (used to
evaluate the claims about `parse_github_url` on concrete URLs). -/
instance exceptDecEq {ε α : Type} [DecidableEq ε] [DecidableEq α] :
    DecidableEq (Except ε α) := fun x y =>
  match x, y with
  | .error a, .error b =>
    if h : a = b then isTrue (congrArg Except.error h)
    else isFalse (fun he => h (Except.error.inj he))
  | .ok a, .ok b =>
    if h : a = b then isTrue (congrArg Except.ok h)
    else isFalse (fun he => h (Except.ok.inj he))
  | .error _, .ok _ => isFalse (fun he => Except.noConfusion he)
  | .ok _, .error _ => isFalse (fun he => Except.noConfusion he)

/-- `parse_github_url` (lines 218-222). -/
def parse_github_url (l : List Char) : Except UrlErr (List Char × List Char × Nat) :=
  (findGh l).elim (.error .invalidFormat) fun res =>
    (parseU32 res.2.2).elim (.error .numberOverflow) fun n => .ok (res.1, res.2.1, n)

/-! ## Spec-side URL shapes (for claim C5) -/

/-- Modelled from the spec: the claimed URL shape
`.../<owner>/<repo>/pull/<number>` — an arbitrary prefix, two non-empty
slash-free segments, the literal `/pull/` and a non-empty digit run
(anything may follow).  Note the spec's shape does not mention the
`github.com/` literal that the code requires. -/
def UrlShapeSpec (s : List Char) : Prop :=
  ∃ pre o r ds post : List Char,
    s = pre ++ o ++ ['/'] ++ r ++ pullLit ++ ds ++ post ∧
    o ≠ [] ∧ (∀ c ∈ o, c ≠ '/') ∧ r ≠ [] ∧ (∀ c ∈ r, c ≠ '/') ∧
    ds ≠ [] ∧ (∀ c ∈ ds, c.isDigit)

/-- One decomposition of `s` as the code's URL pattern: a prefix, the
`github.com/` literal, owner, repo, `/pull/`, digits, and a remainder. -/
def GhParts (s pre o r ds post : List Char) : Prop :=
  s = pre ++ ghLit ++ o ++ ['/'] ++ r ++ pullLit ++ ds ++ post ∧
  o ≠ [] ∧ (∀ c ∈ o, c ≠ '/') ∧ r ≠ [] ∧ (∀ c ∈ r, c ≠ '/') ∧
  ds ≠ [] ∧ (∀ c ∈ ds, c.isDigit)

/-- `s` contains a substring matching the code's URL pattern. -/
def GhShape (s : List Char) : Prop :=
  ∃ pre o r ds post, GhParts s pre o r ds post

/-- Every potential match of the URL regex in `s` captures a number that
fits in `u32` (this rules out the `ParseIntError` path). -/
def ghBounded : List Char → Bool
  | [] => true
  | c :: rest =>
    ((matchGhAt (c :: rest)).elim true fun res => decide (digitsVal res.2.2 < 4294967296)) &&
      ghBounded rest

/-! ## Concrete requests and worlds used by the claims -/

/-- Short-hand for a concrete record. -/
def mkPr (n : Nat) (body base head : String) : PullRequest :=
  ⟨n, "t".toList, body.toList, "OPEN".toList, base.toList, head.toList⟩

/-- A start request without a stack section, in a world whose open listing
fails. -/
def noListPr : PullRequest := mkPr 1 "hello" "main" "f1"

/-- World for the listing-failure counterexample: the start fetch succeeds
but `listOpen` fails. -/
def noListWorld : World := World.ofList [(1, noListPr)] none

/-- A start request whose body references `#2` while `#2` cannot be fetched. -/
def depFailPr : PullRequest := mkPr 1 "depends on #2" "b1" "e1"

/-- World for the dependency-fetch-failure counterexample. -/
def depFailWorld : World := World.ofList [(1, depFailPr)] (some [1])

/-- Start of the single-pass counterexample: declares the stack `[1, 2]`. -/
def op1 : PullRequest := mkPr 1 "Stack:\n- #1 a\n- #2 b\n" "m" "h1"

/-- Declared member of the single-pass counterexample, unrelated by branch. -/
def op2 : PullRequest := mkPr 2 "b2" "x" "h2"

/-- Open request branch-related to `op1` (its base is `op1`'s head). -/
def op3 : PullRequest := mkPr 3 "b3" "h1" "h3"

/-- Open request branch-related to `op3` only (its base is `op3`'s head). -/
def op4 : PullRequest := mkPr 4 "b4" "h3" "h4"

/-- World for the single-pass counterexample of claim C2. -/
def onePassWorld : World :=
  World.ofList [(1, op1), (2, op2), (3, op3), (4, op4)] (some [1, 2, 3, 4])

/-- Start request whose stack section repeats the single identifier `#2`. -/
def dup1 : PullRequest := mkPr 1 "Stack:\n- #2 a\n- #2 b\n" "m" "h1"

/-- The repeated member of the duplicate counterexample. -/
def dup2 : PullRequest := mkPr 2 "hi" "x" "h2"

/-- World for the duplicate-entry counterexample of claim C3. -/
def dupWorld : World := World.ofList [(1, dup1), (2, dup2)] (some [1, 2])

/-- A request with no related requests discoverable by any strategy. -/
def lonePr : PullRequest := mkPr 10 "nothing here" "main" "f10"

/-- World with the lone request as its only open request. -/
def loneWorld : World := World.ofList [(10, lonePr)] (some [10])

/-- First member of the dependency cycle `1 -> #2 -> #1`. -/
def cyc1 : PullRequest := mkPr 1 "depends on #2" "b1" "e1"

/-- Second member of the dependency cycle. -/
def cyc2 : PullRequest := mkPr 2 "depends on #1" "b2" "e2"

/-- World for the dependency-cycle scenario of claim C6. -/
def cycleWorld : World := World.ofList [(1, cyc1), (2, cyc2)] (some [1, 2])

/-- A request whose body lists itself (`depends on #5`). -/
def selfPr : PullRequest := mkPr 5 "depends on #5" "b5" "e5"

/-- World for the self-reference scenario of claim C6. -/
def selfWorld : World := World.ofList [(5, selfPr)] (some [5])

/-- The `main`-based member of the branch chain of claim C9. -/
def chainMain : PullRequest := mkPr 10 "" "main" "feature-x"

/-- The `feature-x`-based member of the branch chain of claim C9. -/
def chainFeat : PullRequest := mkPr 11 "" "feature-x" "f2"

/-- World for the sort tie-break scenario of claim C9. -/
def chainWorld : World := World.ofList [(10, chainMain), (11, chainFeat)] (some [10, 11])

/-- All stack sections declared by records of the world list each identifier
at most once (checked per record, so it is decidable on a finite table). -/
def sectionsNodup (pr : PullRequest) : Bool :=
  match extract_stack_info pr.body with
  | some sps => sps.Nodup
  | none => true

/-! # Helper lemmas -/

theorem ofList_fetch_mem {ps : List (Nat × PullRequest)} {o : Option (List Nat)} {n : Nat}
    {pr : PullRequest} (h : (World.ofList ps o).fetch n = some pr) : (n, pr) ∈ ps := by
  unfold World.ofList at h
  simp only [Option.map_eq_some'] at h
  obtain ⟨q, hq, hq2⟩ := h
  have hmem := List.mem_of_find?_eq_some hq
  have hkey := List.find?_some hq
  simp only [decide_eq_true_eq] at hkey
  cases q
  subst hq2
  subst hkey
  exact hmem

/-- Number consistency of a table-built world whose table is consistent. -/
theorem ofList_number_eq {ps : List (Nat × PullRequest)} {o : Option (List Nat)}
    (h : ∀ p ∈ ps, (p.2).number = p.1) :
    ∀ n pr, (World.ofList ps o).fetch n = some pr → pr.number = n := by
  intro n pr hf
  exact h _ (ofList_fetch_mem hf)

/-- Dependency-fetchability of a table-built world, from the per-record
decidable check. -/
theorem ofList_deps_fetch {ps : List (Nat × PullRequest)} {o : Option (List Nat)}
    (h : ∀ p ∈ ps, ∀ d ∈ extract_dependencies (p.2).body,
      ((World.ofList ps o).fetch d).isSome) :
    ∀ n pr, (World.ofList ps o).fetch n = some pr →
      ∀ d ∈ extract_dependencies pr.body, (World.ofList ps o).fetch d ≠ none := by
  intro n pr hf d hd
  have := h _ (ofList_fetch_mem hf) d hd
  exact Option.isSome_iff_ne_none.mp this

/-- Stack-section duplicate-freedom of a table-built world, from the
per-record decidable check. -/
theorem ofList_sections_nodup {ps : List (Nat × PullRequest)} {o : Option (List Nat)}
    (h : ∀ p ∈ ps, sectionsNodup p.2 = true) :
    ∀ n pr, (World.ofList ps o).fetch n = some pr →
      ∀ sps, extract_stack_info pr.body = some sps → sps.Nodup := by
  intro n pr hf sps hs
  have hp := h _ (ofList_fetch_mem hf)
  unfold sectionsNodup at hp
  rw [hs] at hp
  exact of_decide_eq_true hp

/-! ## The stable sort -/

theorem insertStable_of_le {key : PullRequest → Nat} {x : PullRequest} :
    ∀ {l : List PullRequest}, (∀ y ∈ l, key y ≤ key x) →
      insertStable key x l = l ++ [x] := by
  intro l
  induction l with
  | nil => intro; rfl
  | cons y ys ih =>
    intro h
    simp only [insertStable, if_pos (h y (by simp))]
    rw [ih fun z hz => h z (by simp [hz])]
    simp

theorem insertStable_of_gt {key : PullRequest → Nat} {x : PullRequest} :
    ∀ {l : List PullRequest}, (∀ y ∈ l, ¬ key y ≤ key x) →
      insertStable key x l = x :: l := by
  intro l
  cases l with
  | nil => intro; rfl
  | cons y ys => intro h; simp only [insertStable, if_neg (h y (by simp))]

theorem insertStable_binary_zero {key : PullRequest → Nat} {x : PullRequest}
    (hx : key x = 0) :
    ∀ {A B : List PullRequest}, (∀ a ∈ A, key a = 0) → (∀ b ∈ B, key b = 1) →
      insertStable key x (A ++ B) = A ++ x :: B := by
  intro A
  induction A with
  | nil =>
    intro B _ hB
    simpa using insertStable_of_gt fun y hy => by rw [hB y hy, hx]; omega
  | cons a As ih =>
    intro B hA hB
    have ha : key a ≤ key x := by rw [hA a (by simp), hx]
    simp only [List.cons_append, insertStable, if_pos ha, List.append_eq]
    rw [ih (fun z hz => hA z (by simp [hz])) hB]

theorem sort_binary_go {key : PullRequest → Nat} (hk : ∀ x, key x = 0 ∨ key x = 1) :
    ∀ (l A B : List PullRequest), (∀ a ∈ A, key a = 0) → (∀ b ∈ B, key b = 1) →
      l.foldl (fun acc x => insertStable key x acc) (A ++ B) =
        (A ++ l.filter (fun x => key x == 0)) ++ (B ++ l.filter (fun x => key x == 1)) := by
  intro l
  induction l with
  | nil => intro A B _ _; simp
  | cons x xs ih =>
    intro A B hA hB
    rcases hk x with hx | hx
    · have h1 : insertStable key x (A ++ B) = (A ++ [x]) ++ B := by
        rw [insertStable_binary_zero hx hA hB]; simp
      have hA' : ∀ a ∈ A ++ [x], key a = 0 := by
        intro a ha
        rcases List.mem_append.mp ha with h | h
        · exact hA a h
        · rw [List.mem_singleton.mp h]; exact hx
      simp only [List.foldl_cons, h1]
      rw [ih (A ++ [x]) B hA' hB]
      simp [List.filter_cons, hx, List.append_assoc]
    · have h1 : insertStable key x (A ++ B) = A ++ (B ++ [x]) := by
        rw [insertStable_of_le (fun y _ => by rw [hx]; rcases hk y with h | h <;> omega)]
        simp
      have hB' : ∀ b ∈ B ++ [x], key b = 1 := by
        intro b hb
        rcases List.mem_append.mp hb with h | h
        · exact hB b h
        · rw [List.mem_singleton.mp h]; exact hx
      simp only [List.foldl_cons, h1]
      rw [ih A (B ++ [x]) hA hB']
      simp [List.filter_cons, hx, List.append_assoc]

/-- A stable sort on a binary key keeps the two key classes in their
original relative order, key `0` first. -/
theorem sort_by_key_binary {key : PullRequest → Nat} (hk : ∀ x, key x = 0 ∨ key x = 1)
    (l : List PullRequest) :
    sort_by_key key l =
      l.filter (fun x => key x == 0) ++ l.filter (fun x => key x == 1) := by
  have h := sort_binary_go hk l [] [] (by simp) (by simp)
  simpa [sort_by_key] using h

theorem insertStable_perm (key : PullRequest → Nat) (x : PullRequest) :
    ∀ l, (insertStable key x l).Perm (x :: l) := by
  intro l
  induction l with
  | nil => simp [insertStable]
  | cons y ys ih =>
    simp only [insertStable]
    split
    · exact (ih.cons y).trans (List.Perm.swap x y ys)
    · exact List.Perm.refl _

theorem sort_go_perm (key : PullRequest → Nat) :
    ∀ (l acc : List PullRequest),
      (l.foldl (fun a x => insertStable key x a) acc).Perm (acc ++ l) := by
  intro l
  induction l with
  | nil => intro acc; simp
  | cons x xs ih =>
    intro acc
    have h1 : ((insertStable key x acc) ++ xs).Perm ((x :: acc) ++ xs) :=
      (insertStable_perm key x acc).append_right xs
    have h2 : ((x :: acc) ++ xs).Perm (acc ++ x :: xs) := List.perm_middle.symm
    exact (ih (insertStable key x acc)).trans (h1.trans h2)

/-- `sort_by_key` permutes its input. -/
theorem sort_by_key_perm (key : PullRequest → Nat) (l : List PullRequest) :
    (sort_by_key key l).Perm l := by
  simpa [sort_by_key] using sort_go_perm key l []

/-! ## Traversal lemmas -/

/-- Every number returned by `find_related_by_branch` is the `number` field
of a record fetched from the open list. -/
theorem mem_find_related {w : World} {target : PullRequest} {all_prs : List Nat} {r : Nat}
    (h : r ∈ find_related_by_branch w target all_prs) :
    ∃ n ∈ all_prs, ∃ pr, w.fetch n = some pr ∧ pr.number = r := by
  unfold find_related_by_branch at h
  obtain ⟨pr, hpr, hnum⟩ := List.mem_map.mp h
  have h2 := (List.mem_filter.mp hpr).1
  obtain ⟨n, hn, hfet⟩ := List.mem_filterMap.mp h2
  exact ⟨n, (List.mem_filter.mp hn).1, pr, hfet, hnum⟩

/-- In a number-consistent world, related numbers are themselves fetchable. -/
theorem find_related_fetch {w : World} {target : PullRequest} {all_prs : List Nat}
    (h0 : ∀ n pr, w.fetch n = some pr → pr.number = n) :
    ∀ r ∈ find_related_by_branch w target all_prs, w.fetch r ≠ none := by
  intro r hr
  obtain ⟨n, _, pr, hfet, hnum⟩ := mem_find_related hr
  have : r = n := by rw [← hnum, h0 n pr hfet]
  rw [this, hfet]
  exact fun hc => Option.noConfusion hc

/-- No error escapes the branch traversal of a number-consistent world when
the entry number is visited or fetchable: the only `Err` of
`traverse_branches` is the fetch of a number taken from
`find_related_by_branch`, which was fetched successfully to get there. -/
theorem traverse_branches_ne_err (w : World) (all_prs : List Nat)
    (h0 : ∀ n pr, w.fetch n = some pr → pr.number = n) :
    ∀ fuel : Nat,
      (∀ num visited stack, (num ∈ visited ∨ w.fetch num ≠ none) →
        traverse_branches w all_prs fuel num visited stack ≠ .err) ∧
      (∀ rs visited stack, (∀ r ∈ rs, w.fetch r ≠ none) →
        traverse_branches_list w all_prs fuel rs visited stack ≠ .err) := by
  intro fuel
  induction fuel with
  | zero =>
    constructor
    · intro num v s _
      simp [traverse_branches]
    · intro rs v s _
      cases rs <;> simp [traverse_branches_list]
  | succ f ih =>
    obtain ⟨ihc, ihl⟩ := ih
    constructor
    · intro num v s hnum
      simp only [traverse_branches]
      split
      · simp
      · rename_i hniv
        cases hf : w.fetch num with
        | none =>
          rcases hnum with h | h
          · exact absurd h hniv
          · exact absurd hf h
        | some pr =>
          simp only [Option.elim]
          exact ihl _ _ _ (find_related_fetch h0)
    · intro rs v s hrs
      cases rs with
      | nil => simp [traverse_branches_list]
      | cons r rs' =>
        simp only [traverse_branches_list]
        cases hb : traverse_branches w all_prs f r v s with
        | out => simp [tbind]
        | err => exact absurd hb (ihc r v s (Or.inr (hrs r (by simp))))
        | ok p =>
          simp only [tbind]
          exact ihl rs' p.1 p.2 fun x hx => hrs x (by simp [hx])

/-- No error escapes the dependency traversal when the entry number is
visited or fetchable and every body-referenced dependency of a fetchable
record is fetchable: the `Err`s of `traverse_deps` are the entry fetch and
the fetches of body-referenced numbers, and the reverse loop only recurses
on numbers it fetched successfully itself. -/
theorem traverse_deps_ne_err (w : World) (all_prs : List Nat)
    (h3 : ∀ n pr, w.fetch n = some pr → ∀ d ∈ extract_dependencies pr.body,
      w.fetch d ≠ none) :
    ∀ fuel : Nat,
      (∀ num visited stack, (num ∈ visited ∨ w.fetch num ≠ none) →
        traverse_deps w all_prs fuel num visited stack ≠ .err) ∧
      (∀ ds visited stack, (∀ d ∈ ds, w.fetch d ≠ none) →
        traverse_deps_list w all_prs fuel ds visited stack ≠ .err) ∧
      (∀ os n visited stack,
        traverse_deps_others w all_prs fuel os n visited stack ≠ .err) := by
  intro fuel
  induction fuel with
  | zero =>
    refine ⟨fun num v s _ => by simp [traverse_deps], fun ds v s _ => ?_, fun os n v s => ?_⟩
    · cases ds <;> simp [traverse_deps_list]
    · cases os <;> simp [traverse_deps_others]
  | succ f ih =>
    obtain ⟨ihc, ihl, iho⟩ := ih
    refine ⟨?_, ?_, ?_⟩
    · intro num v s hnum
      simp only [traverse_deps]
      split
      · simp
      · rename_i hniv
        cases hf : w.fetch num with
        | none =>
          rcases hnum with h | h
          · exact absurd h hniv
          · exact absurd hf h
        | some pr =>
          simp only [Option.elim]
          cases hdl : traverse_deps_list w all_prs f (extract_dependencies pr.body)
              (num :: v) (s ++ [pr]) with
          | out => simp [tbind]
          | err => exact absurd hdl (ihl _ _ _ (h3 num pr hf))
          | ok p =>
            simp only [tbind]
            exact iho all_prs num p.1 p.2
    · intro ds v s hds
      cases ds with
      | nil => simp [traverse_deps_list]
      | cons d ds' =>
        simp only [traverse_deps_list]
        cases hd : traverse_deps w all_prs f d v s with
        | out => simp [tbind]
        | err => exact absurd hd (ihc d v s (Or.inr (hds d (by simp))))
        | ok p =>
          simp only [tbind]
          exact ihl ds' p.1 p.2 fun x hx => hds x (by simp [hx])
    · intro os n v s
      cases os with
      | nil => simp [traverse_deps_others]
      | cons o os' =>
        simp only [traverse_deps_others]
        split
        · exact iho os' n v s
        · cases hf : w.fetch o with
          | none =>
            simp only [Option.elim]
            exact iho os' n v s
          | some opr =>
            simp only [Option.elim]
            have hfo : w.fetch o ≠ none := by
              rw [hf]
              exact fun hc => Option.noConfusion hc
            split
            · cases hd : traverse_deps w all_prs f o v s with
              | out => simp [tbind]
              | err => exact absurd hd (ihc o v s (Or.inr hfo))
              | ok p =>
                simp only [tbind]
                exact iho os' n p.1 p.2
            · exact iho os' n v s

/-! ## Expansion lemmas (strategy 1) -/

/-- One `expand_related` step only adds a record fetched from the processed
number. -/
theorem expand_related_mem {w : World} {st : List Nat × List PullRequest} {r : Nat}
    {x : PullRequest} (hx : x ∈ (expand_related w st r).2) :
    x ∈ st.2 ∨ w.fetch r = some x := by
  unfold expand_related at hx
  split at hx
  · exact Or.inl hx
  · cases hf : w.fetch r with
    | none =>
      rw [hf] at hx
      exact Or.inl hx
    | some pr =>
      rw [hf] at hx
      rcases List.mem_append.mp hx with h | h
      · exact Or.inl h
      · rw [List.mem_singleton.mp h]
        exact Or.inr rfl

/-- Folding `expand_related` over the related numbers of one fixed member
`q` only adds records fetched from numbers related to `q`. -/
theorem expand_inner_mem (w : World) (all_prs : List Nat) (q : PullRequest)
    (P : PullRequest → Prop)
    (hP : ∀ r ∈ find_related_by_branch w q all_prs, ∀ x, w.fetch r = some x → P x) :
    ∀ (rs : List Nat) (st : List Nat × List PullRequest),
      (∀ r ∈ rs, r ∈ find_related_by_branch w q all_prs) →
      (∀ x ∈ st.2, P x) →
      ∀ x ∈ (rs.foldl (expand_related w) st).2, P x := by
  intro rs
  induction rs with
  | nil => intro st _ hst x hx; exact hst x hx
  | cons r rs' ih =>
    intro st hrs hst x hx
    refine ih (expand_related w st r) (fun a ha => hrs a (by simp [ha])) ?_ x hx
    intro y hy
    rcases expand_related_mem hy with h | h
    · exact hst y h
    · exact hP r (hrs r (by simp)) y h

/-- The single expansion pass only adds records fetched from numbers
branch-related to an initial member. -/
theorem expand_stack_members (w : World) (all_prs : List Nat) (stack0 : List PullRequest) :
    ∀ pr ∈ expand_stack w all_prs stack0,
      pr ∈ stack0 ∨ ∃ q ∈ stack0, ∃ r ∈ find_related_by_branch w q all_prs,
        w.fetch r = some pr := by
  set P : PullRequest → Prop := fun pr =>
    pr ∈ stack0 ∨ ∃ q ∈ stack0, ∃ r ∈ find_related_by_branch w q all_prs,
      w.fetch r = some pr with hP
  have main : ∀ (qs : List PullRequest) (st : List Nat × List PullRequest),
      (∀ q ∈ qs, q ∈ stack0) → (∀ x ∈ st.2, P x) →
      ∀ x ∈ (qs.foldl (fun st pr =>
        (find_related_by_branch w pr all_prs).foldl (expand_related w) st) st).2, P x := by
    intro qs
    induction qs with
    | nil => intro st _ hst x hx; exact hst x hx
    | cons q qs' ih =>
      intro st hqs hst x hx
      refine ih _ (fun a ha => hqs a (by simp [ha])) ?_ x hx
      refine expand_inner_mem w all_prs q P ?_ _ st (fun r hr => hr) hst
      intro r hr y hy
      exact Or.inr ⟨q, hqs q (by simp), r, hr, hy⟩
  intro pr hpr
  unfold expand_stack at hpr
  exact main stack0 _ (fun q hq => hq) (fun x hx => Or.inl hx) pr hpr

/-! ## Duplicate-freedom lemmas -/

/-- A `foldl` preserves any invariant its step preserves. -/
theorem foldl_preserve {α σ : Type} (Inv : σ → Prop) (f : σ → α → σ)
    (h : ∀ s a, Inv s → Inv (f s a)) :
    ∀ (l : List α) (s : σ), Inv s → Inv (l.foldl f s) := by
  intro l
  induction l with
  | nil => intro s hs; exact hs
  | cons a as ih => intro s hs; exact ih (f s a) (h s a hs)

/-- In a number-consistent world, the numbers of the fetched records of a
list are the fetchable elements of the list, in order. -/
theorem filterMap_fetch_numbers {w : World}
    (h0 : ∀ n pr, w.fetch n = some pr → pr.number = n) :
    ∀ l : List Nat,
      (l.filterMap w.fetch).map (·.number) = l.filter (fun n => (w.fetch n).isSome) := by
  intro l
  induction l with
  | nil => rfl
  | cons n ns ih =>
    cases hf : w.fetch n with
    | none => simp [List.filterMap_cons, List.filter_cons, hf, ih]
    | some pr =>
      simp [List.filterMap_cons, List.filter_cons, hf, ih, h0 n pr hf]

/-- Hence fetched records of a duplicate-free list have duplicate-free
numbers. -/
theorem filterMap_fetch_nodup {w : World}
    (h0 : ∀ n pr, w.fetch n = some pr → pr.number = n) {l : List Nat}
    (hl : l.Nodup) : ((l.filterMap w.fetch).map (·.number)).Nodup := by
  rw [filterMap_fetch_numbers h0]
  exact hl.filter _

/-- Appending a fresh number keeps the number list duplicate-free and the
membership invariant. -/
theorem push_fresh_inv {w : World} {v : List Nat} {s : List PullRequest} {num : Nat}
    {pr : PullRequest} (h0 : ∀ n pr, w.fetch n = some pr → pr.number = n)
    (hf : w.fetch num = some pr) (hniv : num ∉ v)
    (hinv : (s.map (·.number)).Nodup ∧ ∀ p ∈ s, p.number ∈ v) :
    (((s ++ [pr]).map (·.number)).Nodup ∧ ∀ p ∈ s ++ [pr], p.number ∈ num :: v) := by
  obtain ⟨hnd, hmem⟩ := hinv
  have hpr : pr.number = num := h0 num pr hf
  have hnotin : num ∉ s.map (·.number) := by
    intro hc
    obtain ⟨p, hp, hpn⟩ := List.mem_map.mp hc
    exact hniv (hpn ▸ hmem p hp)
  constructor
  · simp only [List.map_append, List.map_cons, List.map_nil, hpr]
    rw [List.nodup_append]
    refine ⟨hnd, List.nodup_singleton num, ?_⟩
    intro a ha hc
    rw [List.mem_singleton.mp hc] at ha
    exact hnotin ha
  · intro p hp
    rcases List.mem_append.mp hp with hh | hh
    · simp [hmem p hh]
    · rw [List.mem_singleton.mp hh, hpr]
      simp

/-- `expand_related` preserves the invariant "stack numbers are
duplicate-free and all recorded in the visited list". -/
theorem expand_related_inv {w : World}
    (h0 : ∀ n pr, w.fetch n = some pr → pr.number = n)
    {st : List Nat × List PullRequest} {r : Nat}
    (hinv : (st.2.map (·.number)).Nodup ∧ ∀ p ∈ st.2, p.number ∈ st.1) :
    (((expand_related w st r).2.map (·.number)).Nodup ∧
      ∀ p ∈ (expand_related w st r).2, p.number ∈ (expand_related w st r).1) := by
  obtain ⟨hnd, hmem⟩ := hinv
  unfold expand_related
  split
  · exact ⟨hnd, hmem⟩
  · rename_i hrv
    cases hf : w.fetch r with
    | none =>
      exact ⟨hnd, fun p hp => by simp [hmem p hp]⟩
    | some pr =>
      have h := push_fresh_inv h0 hf hrv ⟨hnd, hmem⟩
      exact ⟨h.1, fun p hp => h.2 p hp⟩

/-- The expansion pass keeps the stack's numbers duplicate-free when the
initial stack's numbers are. -/
theorem expand_stack_nodup {w : World} (all_prs : List Nat)
    (h0 : ∀ n pr, w.fetch n = some pr → pr.number = n)
    {stack0 : List PullRequest} (hn : (stack0.map (·.number)).Nodup) :
    ((expand_stack w all_prs stack0).map (·.number)).Nodup := by
  unfold expand_stack
  have final := foldl_preserve
    (fun st : List Nat × List PullRequest =>
      (st.2.map (·.number)).Nodup ∧ ∀ p ∈ st.2, p.number ∈ st.1)
    (fun st pr => (find_related_by_branch w pr all_prs).foldl (expand_related w) st)
    (fun s a hs => foldl_preserve
      (fun st : List Nat × List PullRequest =>
        (st.2.map (·.number)).Nodup ∧ ∀ p ∈ st.2, p.number ∈ st.1)
      (expand_related w)
      (fun s' a' hs' => expand_related_inv h0 hs') _ s hs)
    stack0 (stack0.map (·.number), stack0)
    ⟨hn, fun p hp => List.mem_map.mpr ⟨p, hp, rfl⟩⟩
  exact final.1

/-- A found reverse declaration comes from a fetched record's stack
section. -/
theorem find_declared_section {w : World} :
    ∀ {l : List Nat} {start_pr : Nat} {sps : List Nat},
      find_declared_elsewhere w l start_pr = some sps →
      ∃ n pr, w.fetch n = some pr ∧ extract_stack_info pr.body = some sps := by
  intro l
  induction l with
  | nil => intro start_pr sps h; exact absurd h (by simp [find_declared_elsewhere])
  | cons n ns ih =>
    intro start_pr sps h
    unfold find_declared_elsewhere at h
    split at h
    · exact ih h
    · cases hf : w.fetch n with
      | none =>
        rw [hf] at h
        simp only [Option.elim] at h
        exact ih h
      | some pr =>
        rw [hf] at h
        simp only [Option.elim] at h
        cases hsec : extract_stack_info pr.body with
        | none =>
          rw [hsec] at h
          simp only [Option.elim] at h
          exact ih h
        | some sps' =>
          rw [hsec] at h
          simp only [Option.elim] at h
          split at h
          · cases h
            exact ⟨n, pr, hf, hsec⟩
          · exact ih h

/-- The branch traversal preserves the invariant "stack numbers are
duplicate-free and all recorded in the visited list". -/
theorem traverse_branches_nodup (w : World) (all_prs : List Nat)
    (h0 : ∀ n pr, w.fetch n = some pr → pr.number = n) :
    ∀ fuel : Nat,
      (∀ num v s v' s',
        ((s.map (·.number)).Nodup ∧ ∀ p ∈ s, p.number ∈ v) →
        traverse_branches w all_prs fuel num v s = .ok (v', s') →
        (s'.map (·.number)).Nodup ∧ ∀ p ∈ s', p.number ∈ v') ∧
      (∀ rs v s v' s',
        ((s.map (·.number)).Nodup ∧ ∀ p ∈ s, p.number ∈ v) →
        traverse_branches_list w all_prs fuel rs v s = .ok (v', s') →
        (s'.map (·.number)).Nodup ∧ ∀ p ∈ s', p.number ∈ v') := by
  intro fuel
  induction fuel with
  | zero =>
    constructor
    · intro num v s v' s' _ h
      exact absurd h (by simp [traverse_branches])
    · intro rs v s v' s' hinv h
      cases rs with
      | nil =>
        simp only [traverse_branches_list] at h
        cases h
        exact hinv
      | cons r rs' => exact absurd h (by simp [traverse_branches_list])
  | succ f ih =>
    obtain ⟨ihc, ihl⟩ := ih
    constructor
    · intro num v s v' s' hinv h
      simp only [traverse_branches] at h
      split at h
      · cases h
        exact hinv
      · rename_i hniv
        cases hf : w.fetch num with
        | none =>
          rw [hf] at h
          exact absurd h (by simp [Option.elim])
        | some pr =>
          rw [hf] at h
          simp only [Option.elim] at h
          exact ihl _ _ _ _ _ (push_fresh_inv h0 hf hniv hinv) h
    · intro rs v s v' s' hinv h
      cases rs with
      | nil =>
        simp only [traverse_branches_list] at h
        cases h
        exact hinv
      | cons r rs' =>
        simp only [traverse_branches_list] at h
        cases hb : traverse_branches w all_prs f r v s with
        | out => rw [hb] at h; exact absurd h (by simp [tbind])
        | err => rw [hb] at h; exact absurd h (by simp [tbind])
        | ok p =>
          rw [hb] at h
          simp only [tbind] at h
          exact ihl rs' p.1 p.2 v' s' (ihc r v s p.1 p.2 hinv hb) h

/-- The dependency traversal preserves the same invariant. -/
theorem traverse_deps_nodup (w : World) (all_prs : List Nat)
    (h0 : ∀ n pr, w.fetch n = some pr → pr.number = n) :
    ∀ fuel : Nat,
      (∀ num v s v' s',
        ((s.map (·.number)).Nodup ∧ ∀ p ∈ s, p.number ∈ v) →
        traverse_deps w all_prs fuel num v s = .ok (v', s') →
        (s'.map (·.number)).Nodup ∧ ∀ p ∈ s', p.number ∈ v') ∧
      (∀ ds v s v' s',
        ((s.map (·.number)).Nodup ∧ ∀ p ∈ s, p.number ∈ v) →
        traverse_deps_list w all_prs fuel ds v s = .ok (v', s') →
        (s'.map (·.number)).Nodup ∧ ∀ p ∈ s', p.number ∈ v') ∧
      (∀ os n v s v' s',
        ((s.map (·.number)).Nodup ∧ ∀ p ∈ s, p.number ∈ v) →
        traverse_deps_others w all_prs fuel os n v s = .ok (v', s') →
        (s'.map (·.number)).Nodup ∧ ∀ p ∈ s', p.number ∈ v') := by
  intro fuel
  induction fuel with
  | zero =>
    refine ⟨?_, ?_, ?_⟩
    · intro num v s v' s' _ h
      exact absurd h (by simp [traverse_deps])
    · intro ds v s v' s' hinv h
      cases ds with
      | nil =>
        simp only [traverse_deps_list] at h
        cases h
        exact hinv
      | cons d ds' => exact absurd h (by simp [traverse_deps_list])
    · intro os n v s v' s' hinv h
      cases os with
      | nil =>
        simp only [traverse_deps_others] at h
        cases h
        exact hinv
      | cons o os' => exact absurd h (by simp [traverse_deps_others])
  | succ f ih =>
    obtain ⟨ihc, ihl, iho⟩ := ih
    refine ⟨?_, ?_, ?_⟩
    · intro num v s v' s' hinv h
      simp only [traverse_deps] at h
      split at h
      · cases h
        exact hinv
      · rename_i hniv
        cases hf : w.fetch num with
        | none =>
          rw [hf] at h
          exact absurd h (by simp [Option.elim])
        | some pr =>
          rw [hf] at h
          simp only [Option.elim] at h
          cases hdl : traverse_deps_list w all_prs f (extract_dependencies pr.body)
              (num :: v) (s ++ [pr]) with
          | out => rw [hdl] at h; exact absurd h (by simp [tbind])
          | err => rw [hdl] at h; exact absurd h (by simp [tbind])
          | ok p =>
            rw [hdl] at h
            simp only [tbind] at h
            exact iho all_prs num p.1 p.2 v' s'
              (ihl _ _ _ p.1 p.2 (push_fresh_inv h0 hf hniv hinv) hdl) h
    · intro ds v s v' s' hinv h
      cases ds with
      | nil =>
        simp only [traverse_deps_list] at h
        cases h
        exact hinv
      | cons d ds' =>
        simp only [traverse_deps_list] at h
        cases hd : traverse_deps w all_prs f d v s with
        | out => rw [hd] at h; exact absurd h (by simp [tbind])
        | err => rw [hd] at h; exact absurd h (by simp [tbind])
        | ok p =>
          rw [hd] at h
          simp only [tbind] at h
          exact ihl ds' p.1 p.2 v' s' (ihc d v s p.1 p.2 hinv hd) h
    · intro os n v s v' s' hinv h
      cases os with
      | nil =>
        simp only [traverse_deps_others] at h
        cases h
        exact hinv
      | cons o os' =>
        simp only [traverse_deps_others] at h
        split at h
        · exact iho os' n v s v' s' hinv h
        · cases hf : w.fetch o with
          | none =>
            rw [hf] at h
            simp only [Option.elim] at h
            exact iho os' n v s v' s' hinv h
          | some opr =>
            rw [hf] at h
            simp only [Option.elim] at h
            split at h
            · cases hd : traverse_deps w all_prs f o v s with
              | out => rw [hd] at h; exact absurd h (by simp [tbind])
              | err => rw [hd] at h; exact absurd h (by simp [tbind])
              | ok p =>
                rw [hd] at h
                simp only [tbind] at h
                exact iho os' n p.1 p.2 v' s' (ihc o v s p.1 p.2 hinv hd) h
            · exact iho os' n v s v' s' hinv h

/-! # Claim theorems -/

/-- C7: `extract_stack_info` parses a case-insensitive "stack:" section of
list lines "- #N ...": for the body `"Stack:\n- #2 foo\n- #5 bar\n"` it
returns the ordered list `[2, 5]` (also with a lower-case or upper-case
header), and a body whose stack section has only one list line returns no
stack. -/
theorem claim_C7_extract_stack_info :
    extract_stack_info "Stack:\n- #2 foo\n- #5 bar\n".toList = some [2, 5] ∧
    extract_stack_info "stack:\n- #2 foo\n- #5 bar\n".toList = some [2, 5] ∧
    extract_stack_info "STACK:\n- #2 foo\n- #5 bar\n".toList = some [2, 5] ∧
    extract_stack_info "Stack:\n- #7 only one line\n".toList = none ∧
    extract_stack_info "Stack:\n- #7\n".toList = none := by
  decide

/-- C8: dependency-phrase extraction is case-insensitive and matches all six
phrase forms; for the body `"Depends on #3 and based on #7"` it yields
`[3, 7]` in left-to-right order. -/
theorem claim_C8_extract_dependencies :
    extract_dependencies "Depends on #3 and based on #7".toList = [3, 7] ∧
    extract_dependencies "depends on #1".toList = [1] ∧
    extract_dependencies "DEPENDS ON #1".toList = [1] ∧
    extract_dependencies "Based On #2".toList = [2] ∧
    extract_dependencies "stacked on #3".toList = [3] ∧
    extract_dependencies "builds on #4".toList = [4] ∧
    extract_dependencies "build on #4".toList = [4] ∧
    extract_dependencies "requires #5".toList = [5] ∧
    extract_dependencies "require #5".toList = [5] ∧
    extract_dependencies "follows #6".toList = [6] ∧
    extract_dependencies "follow #6".toList = [6] := by
  decide

/-- C10: `extract_dependencies` returns matches grouped by phrase pattern in
the fixed pattern order, not in overall document order: for the body
`"based on #7 and depends on #3"` it returns `[3, 7]` (the "depends on"
match first), not `[7, 3]`. -/
theorem claim_C10_pattern_order :
    extract_dependencies "based on #7 and depends on #3".toList = [3, 7] ∧
    extract_dependencies "based on #7 and depends on #3".toList ≠ [7, 3] ∧
    extract_dependencies "follows #9 and depends on #1 and stacked on #4".toList
      = [1, 4, 9] := by
  decide

/-- C9: when the branch-chaining traversal collects more than one request,
the collected requests are sorted stably with base branch `"main"` first and
ties keeping discovery order: `sort_by_key` under the binary key of line 161
keeps each key class in input order with the `"main"` class first, and in
the two-request chain world the `"main"`-based request `#10` is returned
first both when discovery starts at `#10` and when it starts at `#11`. -/
theorem claim_C9_main_first :
    (∀ l : List PullRequest,
      sort_by_key mainFirstKey l =
        l.filter (fun pr => mainFirstKey pr == 0) ++
          l.filter (fun pr => mainFirstKey pr == 1)) ∧
    build_stack_graph chainWorld 10 10 = .ok [chainMain, chainFeat] ∧
    build_stack_graph chainWorld 10 11 = .ok [chainMain, chainFeat] ∧
    chainMain.base_ref = "main".toList ∧ chainFeat.base_ref = "feature-x".toList := by
  refine ⟨fun l => sort_by_key_binary ?_ l, by decide, by decide, by decide, by decide⟩
  intro x
  unfold mainFirstKey
  split
  · exact Or.inl rfl
  · exact Or.inr rfl

/-- C1 counterexample: the claim says a run whose start fetch succeeds never
returns an error, with a listing failure recovered as an empty candidate set
and traversal fetch failures silently excluded.  In `noListWorld` the start
fetch succeeds yet `build_stack_graph` fails because line 142 propagates the
listing failure with `?`, and in `depFailWorld` (listing succeeds) it fails
because line 185 propagates the fetch failure of the body-referenced `#2`
inside `traverse_deps`. -/
theorem claim_C1_cex :
    (noListWorld.fetch 1).isSome ∧
    build_stack_graph noListWorld 10 1 = .err ∧
    (depFailWorld.fetch 1).isSome ∧ depFailWorld.listOpen = some [1] ∧
    build_stack_graph depFailWorld 10 1 = .err := by
  decide

/-- C1 amended: with a number-consistent source, a run whose start fetch
succeeds returns no error provided additionally that (a) the open listing
succeeds whenever the start body has no stack section (line 142 propagates
its failure), and (b) every identifier referenced by a dependency phrase of
a fetchable body is itself fetchable (line 185 propagates such a fetch
failure inside `traverse_deps`).  All other individual fetch failures
(declared members, the strategy-2 scan, branch-related candidates, the
reverse dependency scan) are silently excluded. -/
theorem claim_C1_amended (w : World) (start_pr : Nat) (st : PullRequest)
    (h0 : ∀ n pr, w.fetch n = some pr → pr.number = n)
    (h1 : w.fetch start_pr = some st)
    (h2 : w.listOpen ≠ none ∨ extract_stack_info st.body ≠ none)
    (h3 : ∀ n pr, w.fetch n = some pr → ∀ d ∈ extract_dependencies pr.body,
      w.fetch d ≠ none) :
    ∀ fuel, build_stack_graph w fuel start_pr ≠ .err := by
  intro fuel
  have hst : w.fetch start_pr ≠ none := by
    rw [h1]
    exact fun hc => Option.noConfusion hc
  unfold build_stack_graph
  rw [h1]
  simp only [Option.elim]
  cases hsec : extract_stack_info st.body with
  | some sps =>
    cases w.listOpen <;> simp [Option.elim]
  | none =>
    rcases h2 with h2 | h2
    · obtain ⟨all_prs, hall⟩ := Option.ne_none_iff_exists'.mp h2
      rw [hall]
      simp only [Option.elim]
      cases hfd : find_declared_elsewhere w all_prs start_pr with
      | some sps => simp
      | none =>
        cases hb : traverse_branches w all_prs fuel start_pr [] [] with
        | out => simp [tbind]
        | err =>
          exact absurd hb ((traverse_branches_ne_err w all_prs h0 fuel).1 start_pr [] []
            (Or.inr hst))
        | ok p =>
          simp only [tbind]
          split
          · simp
          · cases hd : traverse_deps w all_prs fuel start_pr [] [] with
            | out => simp [tbind]
            | err =>
              exact absurd hd ((traverse_deps_ne_err w all_prs h3 fuel).1 start_pr [] []
                (Or.inr hst))
            | ok q => simp [tbind]
    · exact absurd hsec h2

/-- C1 amended witness: in the lone-request world all hypotheses hold and
the run succeeds. -/
theorem claim_C1_amended_witness : build_stack_graph loneWorld 7 10 ≠ .err := by
  refine claim_C1_amended loneWorld 10 lonePr ?_ (by decide) (Or.inl (by decide)) ?_ 7
  · exact ofList_number_eq (by decide)
  · exact ofList_deps_fetch (by decide)

/-- C2 counterexample: the claim says the explicit-declaration stack is
closed under branch chaining (members appended during expansion are
expanded too).  In `onePassWorld` the declared stack `[1, 2]` is expanded to
`[1, 2, 3]`, and the open request `#4` is branch-related to the appended
member `#3` yet absent, because the loop of line 129 iterates only over the
snapshot `stack.clone()`. -/
theorem claim_C2_cex :
    build_stack_graph onePassWorld 10 1 = .ok [op1, op2, op3] ∧
    (4 ∈ find_related_by_branch onePassWorld op3 [1, 2, 3, 4]) ∧
    (onePassWorld.fetch 4).isSome ∧
    (4 ∉ [op1, op2, op3].map (·.number)) := by
  decide

/-- C2 amended: the expansion is a single pass over the snapshot of the
initially fetched declared members; every member of the returned stack is
an initial member or a record fetched from a number branch-related to an
initial member (never discovered through a member appended during the
pass). -/
theorem claim_C2_amended (w : World) (start_pr : Nat) (st : PullRequest) (sps : List Nat)
    (all_prs : List Nat) (res : List PullRequest) (fuel : Nat)
    (h1 : w.fetch start_pr = some st)
    (h2 : extract_stack_info st.body = some sps)
    (h3 : w.listOpen = some all_prs)
    (h4 : build_stack_graph w fuel start_pr = .ok res) :
    ∀ pr ∈ res, pr ∈ sps.filterMap w.fetch ∨
      ∃ q ∈ sps.filterMap w.fetch, ∃ r ∈ find_related_by_branch w q all_prs,
        w.fetch r = some pr := by
  unfold build_stack_graph at h4
  rw [h1] at h4
  simp only [Option.elim, h2, h3] at h4
  have hres : res = expand_stack w all_prs (sps.filterMap w.fetch) := by
    cases h4
    rfl
  subst hres
  exact expand_stack_members w all_prs (sps.filterMap w.fetch)

/-- C2 amended witness: in the one-pass world the returned member `op3` is
accounted for as branch-related to the initial member `op1`. -/
theorem claim_C2_amended_witness :
    op3 ∈ [1, 2].filterMap onePassWorld.fetch ∨
      ∃ q ∈ [1, 2].filterMap onePassWorld.fetch,
        ∃ r ∈ find_related_by_branch onePassWorld q [1, 2, 3, 4],
          onePassWorld.fetch r = some op3 :=
  claim_C2_amended onePassWorld 1 op1 [1, 2] [1, 2, 3, 4] [op1, op2, op3] 10
    (by decide) (by decide) rfl (by decide) op3 (by decide)

/-- C3 counterexample: the claim says the explicit-declaration strategy only
triggers on two or more distinct identifiers, so a stack section repeating
one identifier cannot produce duplicates.  But `extract_stack_info` checks
`len > 1`, not distinctness: the body `"Stack:\n- #2 a\n- #2 b\n"` parses to
`[2, 2]` and the resolved stack holds request `#2` twice. -/
theorem claim_C3_cex :
    extract_stack_info "Stack:\n- #2 a\n- #2 b\n".toList = some [2, 2] ∧
    build_stack_graph dupWorld 10 1 = .ok [dup2, dup2] ∧
    ¬ ([dup2, dup2].map (·.number)).Nodup := by
  decide

/-- C3 amended: the explicit-declaration strategy triggers on a stack
section with two or more entries whether or not they are distinct, and a
repeated declared identifier is fetched repeatedly; the returned stack
contains each numeric identifier at most once provided the source is
number-consistent and every declared stack section lists each identifier at
most once (the traversal strategies guarantee it through their visited
sets, and the sorts only permute). -/
theorem claim_C3_amended (w : World) (start_pr fuel : Nat) (res : List PullRequest)
    (h0 : ∀ n pr, w.fetch n = some pr → pr.number = n)
    (hd : ∀ n pr, w.fetch n = some pr → ∀ sps, extract_stack_info pr.body = some sps →
      sps.Nodup)
    (hres : build_stack_graph w fuel start_pr = .ok res) :
    (res.map (·.number)).Nodup := by
  unfold build_stack_graph at hres
  cases hst : w.fetch start_pr with
  | none =>
    rw [hst] at hres
    exact absurd hres (by simp [Option.elim])
  | some st =>
    rw [hst] at hres
    simp only [Option.elim] at hres
    cases hsec : extract_stack_info st.body with
    | some sps =>
      rw [hsec] at hres
      simp only [Option.elim] at hres
      have hnod : sps.Nodup := hd start_pr st hst sps hsec
      cases hl : w.listOpen with
      | none =>
        rw [hl] at hres
        simp only [Option.elim] at hres
        cases hres
        exact filterMap_fetch_nodup h0 hnod
      | some all_prs =>
        rw [hl] at hres
        simp only [Option.elim] at hres
        cases hres
        exact expand_stack_nodup all_prs h0 (filterMap_fetch_nodup h0 hnod)
    | none =>
      rw [hsec] at hres
      simp only [Option.elim] at hres
      cases hl : w.listOpen with
      | none =>
        rw [hl] at hres
        exact absurd hres (by simp [Option.elim])
      | some all_prs =>
        rw [hl] at hres
        simp only [Option.elim] at hres
        cases hfd : find_declared_elsewhere w all_prs start_pr with
        | some sps' =>
          rw [hfd] at hres
          simp only [Option.elim] at hres
          cases hres
          obtain ⟨n, pr, hfet, hsec'⟩ := find_declared_section hfd
          exact filterMap_fetch_nodup h0 (hd n pr hfet sps' hsec')
        | none =>
          rw [hfd] at hres
          simp only [Option.elim] at hres
          cases hb : traverse_branches w all_prs fuel start_pr [] [] with
          | out => rw [hb] at hres; exact absurd hres (by simp [tbind])
          | err => rw [hb] at hres; exact absurd hres (by simp [tbind])
          | ok p =>
            rw [hb] at hres
            simp only [tbind] at hres
            have hpn : (p.2.map (·.number)).Nodup :=
              ((traverse_branches_nodup w all_prs h0 fuel).1 start_pr [] [] p.1 p.2
                ⟨by simp, by simp⟩ hb).1
            split at hres
            · cases hres
              exact (((sort_by_key_perm mainFirstKey p.2).map (·.number)).nodup_iff).mpr hpn
            · cases hd2 : traverse_deps w all_prs fuel start_pr [] [] with
              | out => rw [hd2] at hres; exact absurd hres (by simp [tbind])
              | err => rw [hd2] at hres; exact absurd hres (by simp [tbind])
              | ok q =>
                rw [hd2] at hres
                simp only [tbind] at hres
                cases hres
                have hqn : (q.2.map (·.number)).Nodup :=
                  ((traverse_deps_nodup w all_prs h0 fuel).1 start_pr [] [] q.1 q.2
                    ⟨by simp, by simp⟩ hd2).1
                exact (((sort_by_key_perm depCountKey q.2).map (·.number)).nodup_iff).mpr hqn

/-- C3 amended witness: in the one-pass world (consistent numbers,
duplicate-free declared sections) the resolved stack `[1, 2, 3]` has
duplicate-free numbers. -/
theorem claim_C3_amended_witness : (([op1, op2, op3].map (·.number)).Nodup) :=
  claim_C3_amended onePassWorld 1 10 [op1, op2, op3]
    (ofList_number_eq (by decide)) (ofList_sections_nodup (by decide)) (by decide)

/-- C6: every traversal visits each identifier at most once (the stack
numbers of any `ok` result of either traversal, started from an empty
visited set in a number-consistent world, are duplicate-free), and on the
concrete dependency cycle `1 -> depends on #2 -> depends on #1` the
traversal terminates with each of `1` and `2` exactly once; a
self-referencing request also terminates with a single entry. -/
theorem claim_C6_cycle_safety :
    (∀ (w : World) (all_prs : List Nat),
      (∀ n pr, w.fetch n = some pr → pr.number = n) →
      ∀ (fuel num : Nat) (v : List Nat) (s : List PullRequest),
        traverse_deps w all_prs fuel num [] [] = .ok (v, s) →
        (s.map (·.number)).Nodup) ∧
    (∀ (w : World) (all_prs : List Nat),
      (∀ n pr, w.fetch n = some pr → pr.number = n) →
      ∀ (fuel num : Nat) (v : List Nat) (s : List PullRequest),
        traverse_branches w all_prs fuel num [] [] = .ok (v, s) →
        (s.map (·.number)).Nodup) ∧
    traverse_deps cycleWorld [1, 2] 10 1 [] [] = .ok ([2, 1], [cyc1, cyc2]) ∧
    build_stack_graph cycleWorld 10 1 = .ok [cyc1, cyc2] ∧
    ([cyc1, cyc2].map (·.number)).count 1 = 1 ∧
    ([cyc1, cyc2].map (·.number)).count 2 = 1 ∧
    build_stack_graph selfWorld 10 5 = .ok [selfPr] := by
  refine ⟨?_, ?_, by decide, by decide, by decide, by decide, by decide⟩
  · intro w all_prs h0 fuel num v s h
    exact ((traverse_deps_nodup w all_prs h0 fuel).1 num [] [] v s ⟨by simp, by simp⟩ h).1
  · intro w all_prs h0 fuel num v s h
    exact ((traverse_branches_nodup w all_prs h0 fuel).1 num [] [] v s ⟨by simp, by simp⟩ h).1

/-- C6 witness: the general at-most-once statement applied to the concrete
cycle world's traversal result. -/
theorem claim_C6_cycle_safety_witness : (([cyc1, cyc2].map (·.number)).Nodup) :=
  claim_C6_cycle_safety.1 cycleWorld [1, 2] (ofList_number_eq (by decide)) 10 1
    [2, 1] [cyc1, cyc2] (by decide)

/-! ## Lemmas for the unstacked-request claim (C4) -/

/-- When no open request's section declares the start, the strategy-2 scan
finds nothing. -/
theorem find_declared_none {w : World} {start_pr : Nat} :
    ∀ {l : List Nat},
      (∀ n ∈ l, n ≠ start_pr → ∀ pr, w.fetch n = some pr →
        ∀ sps, extract_stack_info pr.body = some sps → start_pr ∉ sps) →
      find_declared_elsewhere w l start_pr = none := by
  intro l
  induction l with
  | nil => intro _; rfl
  | cons n ns ih =>
    intro h
    have hrest : ∀ m ∈ ns, m ≠ start_pr → ∀ pr, w.fetch m = some pr →
        ∀ sps, extract_stack_info pr.body = some sps → start_pr ∉ sps :=
      fun m hm => h m (by simp [hm])
    unfold find_declared_elsewhere
    split
    · exact ih hrest
    · rename_i hne
      cases hf : w.fetch n with
      | none => simp only [Option.elim]; exact ih hrest
      | some pr =>
        simp only [Option.elim]
        cases hsec : extract_stack_info pr.body with
        | none => simp only [Option.elim]; exact ih hrest
        | some sps =>
          simp only [Option.elim]
          rw [if_neg (h n (by simp) hne pr hf sps hsec)]
          exact ih hrest

/-- When no other open request is branch-adjacent to the target, the
related list is empty. -/
theorem find_related_empty {w : World} {st : PullRequest} {all_prs : List Nat}
    (h : ∀ n ∈ all_prs, n ≠ st.number → ∀ pr, w.fetch n = some pr →
      ¬(pr.base_ref = st.head_ref ∨ st.base_ref = pr.head_ref)) :
    find_related_by_branch w st all_prs = [] := by
  unfold find_related_by_branch
  rw [List.map_eq_nil_iff]
  rw [List.filter_eq_nil_iff]
  intro pr hpr
  obtain ⟨n, hn, hf⟩ := List.mem_filterMap.mp hpr
  have hmem := List.mem_filter.mp hn
  have hne : n ≠ st.number := by simpa using hmem.2
  simpa using h n hmem.1 hne pr hf

/-- The reverse loop of `traverse_deps` is the identity when every open
number is the current one, unfetchable, or has a body not referencing the
current number. -/
theorem traverse_deps_others_skip {w : World} {all_prs : List Nat} {num : Nat} :
    ∀ {os : List Nat},
      (∀ o ∈ os, o = num ∨ ∀ pr, w.fetch o = some pr →
        num ∉ extract_dependencies pr.body) →
      ∀ {fuel : Nat}, os.length ≤ fuel →
        ∀ v s, traverse_deps_others w all_prs fuel os num v s = .ok (v, s) := by
  intro os
  induction os with
  | nil =>
    intro _ fuel _ v s
    cases fuel <;> rfl
  | cons o os' ih =>
    intro h fuel hlen v s
    have hrest : ∀ a ∈ os', a = num ∨ ∀ pr, w.fetch a = some pr →
        num ∉ extract_dependencies pr.body := fun a ha => h a (by simp [ha])
    obtain ⟨g, rfl⟩ : ∃ g, fuel = g + 1 := by
      cases fuel with
      | zero => simp at hlen
      | succ g => exact ⟨g, rfl⟩
    have hg : os'.length ≤ g := by simpa using hlen
    unfold traverse_deps_others
    split
    · exact ih hrest hg v s
    · rename_i hne
      cases hf : w.fetch o with
      | none =>
        simp only [Option.elim]
        exact ih hrest hg v s
      | some opr =>
        simp only [Option.elim]
        rcases h o (by simp) with hh | hh
        · exact absurd hh hne
        · rw [if_neg (hh opr hf)]
          exact ih hrest hg v s

/-- C4: for every start identifier for which no strategy discovers any
related request (no stack section on the start, no other section declaring
it, no branch-adjacent open request, no dependency phrase in or towards the
start), the resolver returns exactly one element — the start request itself
(an unstacked request is not an error).  The fuel must exceed the length of
the open listing (a bound on the depth of the Rust recursion, which the
embedding meters). -/
theorem claim_C4_unstacked (w : World) (start_pr : Nat) (st : PullRequest)
    (all_prs : List Nat) (fuel : Nat)
    (h0 : st.number = start_pr)
    (h1 : w.fetch start_pr = some st)
    (h2 : w.listOpen = some all_prs)
    (h3 : extract_stack_info st.body = none)
    (h4 : extract_dependencies st.body = [])
    (h5 : ∀ n ∈ all_prs, n ≠ start_pr → ∀ pr, w.fetch n = some pr →
      (∀ sps, extract_stack_info pr.body = some sps → start_pr ∉ sps) ∧
      ¬(pr.base_ref = st.head_ref ∨ st.base_ref = pr.head_ref) ∧
      start_pr ∉ extract_dependencies pr.body)
    (hfuel : all_prs.length < fuel) :
    build_stack_graph w fuel start_pr = .ok [st] := by
  obtain ⟨g, rfl⟩ : ∃ g, fuel = g + 1 := by
    cases fuel with
    | zero => simp at hfuel
    | succ g => exact ⟨g, rfl⟩
  have hg : all_prs.length ≤ g := by omega
  have hrelated : find_related_by_branch w st all_prs = [] := by
    refine find_related_empty ?_
    intro n hn hne pr hf
    exact (h5 n hn (by rw [h0] at hne; exact hne) pr hf).2.1
  have hfd : find_declared_elsewhere w all_prs start_pr = none :=
    find_declared_none fun n hn hne pr hf sps hsec => (h5 n hn hne pr hf).1 sps hsec
  have hbr : traverse_branches w all_prs (g + 1) start_pr [] [] =
      .ok ([start_pr], [st]) := by
    simp [traverse_branches, h1, Option.elim, hrelated, traverse_branches_list]
  have hoth : traverse_deps_others w all_prs g all_prs start_pr [start_pr] [st] =
      .ok ([start_pr], [st]) := by
    refine traverse_deps_others_skip ?_ hg _ _
    intro o ho
    by_cases hoe : o = start_pr
    · exact Or.inl hoe
    · exact Or.inr fun pr hf => (h5 o ho hoe pr hf).2.2
  have hdp : traverse_deps w all_prs (g + 1) start_pr [] [] = .ok ([start_pr], [st]) := by
    simp [traverse_deps, h1, Option.elim, h4, traverse_deps_list, tbind, hoth]
  unfold build_stack_graph
  rw [h1]
  simp only [Option.elim]
  rw [h3]
  simp only [Option.elim]
  rw [h2]
  simp only [Option.elim]
  rw [hfd]
  simp only [Option.elim]
  rw [hbr]
  simp only [tbind]
  rw [if_neg (by simp)]
  rw [hdp]
  simp only [tbind]
  simp [sort_by_key, insertStable]

/-- C4 witness: the lone request resolves to the single-element stack
holding itself. -/
theorem claim_C4_unstacked_witness : build_stack_graph loneWorld 2 10 = .ok [lonePr] := by
  refine claim_C4_unstacked loneWorld 10 lonePr [10] 2 (by decide) (by decide) rfl
    (by decide) (by decide) ?_ (by decide)
  intro n hn hne pr hf
  simp only [List.mem_singleton] at hn
  exact absurd hn hne

/-! ## URL parser lemmas (C5) -/

theorem stripLit_sound : ∀ {lit l r : List Char}, stripLit lit l = some r → l = lit ++ r := by
  intro lit
  induction lit with
  | nil =>
    intro l r h
    cases h
    rfl
  | cons p ps ih =>
    intro l r h
    cases l with
    | nil => exact absurd h (by simp [stripLit])
    | cons c cs =>
      unfold stripLit at h
      split at h
      · rename_i hc
        rw [List.cons_append, ← ih h, hc]
      · exact absurd h (by simp)

theorem stripLit_self : ∀ (lit r : List Char), stripLit lit (lit ++ r) = some r := by
  intro lit r
  induction lit with
  | nil => rfl
  | cons p ps ih => simpa [stripLit] using ih

theorem chompSlash_sound : ∀ {l r : List Char}, chompSlash l = some r → l = '/' :: r := by
  intro l r h
  cases l with
  | nil => exact absurd h (by simp [chompSlash])
  | cons c cs =>
    unfold chompSlash at h
    split at h
    · rename_i c2 r2 hc
      split at h
      · rename_i hs
        cases h
        rw [hc, hs]
      · exact absurd h (by simp)
    · exact absurd h (by simp)

theorem takeWhile_app_of_all {p : Char → Bool} :
    ∀ {xs : List Char} (ys : List Char), (∀ x ∈ xs, p x) →
      (xs ++ ys).takeWhile p = xs ++ ys.takeWhile p := by
  intro xs
  induction xs with
  | nil => intro ys _; simp
  | cons a as ih =>
    intro ys h
    simp [List.takeWhile_cons, h a (by simp), ih ys (fun x hx => h x (by simp [hx]))]

theorem dropWhile_app_of_all {p : Char → Bool} :
    ∀ {xs : List Char} (ys : List Char), (∀ x ∈ xs, p x) →
      (xs ++ ys).dropWhile p = ys.dropWhile p := by
  intro xs
  induction xs with
  | nil => intro ys _; simp
  | cons a as ih =>
    intro ys h
    simp [List.dropWhile_cons, h a (by simp), ih ys (fun x hx => h x (by simp [hx]))]

/-- Soundness of the anchored URL match: a successful match decomposes the
input as the pattern demands. -/
theorem matchGhAt_sound {l o r ds : List Char} (h : matchGhAt l = some (o, r, ds)) :
    ∃ post, l = ghLit ++ o ++ ['/'] ++ r ++ pullLit ++ ds ++ post ∧
      o ≠ [] ∧ (∀ c ∈ o, c ≠ '/') ∧ r ≠ [] ∧ (∀ c ∈ r, c ≠ '/') ∧
      ds ≠ [] ∧ (∀ c ∈ ds, c.isDigit) := by
  unfold matchGhAt at h
  cases hs1 : stripLit ghLit l with
  | none =>
    rw [hs1] at h
    exact absurd h (by simp)
  | some r1 =>
    rw [hs1] at h
    simp only [Option.bind] at h
    split at h
    · exact absurd h (by simp)
    · rename_i ho
      cases hc : chompSlash (r1.dropWhile (· ≠ '/')) with
      | none =>
        rw [hc] at h
        exact absurd h (by simp)
      | some r3 =>
        rw [hc] at h
        simp only [Option.bind] at h
        split at h
        · exact absurd h (by simp)
        · rename_i hrp
          cases hs2 : stripLit pullLit (r3.dropWhile (· ≠ '/')) with
          | none =>
            rw [hs2] at h
            exact absurd h (by simp)
          | some r5 =>
            rw [hs2] at h
            simp only [Option.bind] at h
            split at h
            · exact absurd h (by simp)
            · rename_i hds
              cases h
              refine ⟨r5.dropWhile Char.isDigit, ?_, ?_, ?_, ?_, ?_, ?_, ?_⟩
              · have e1 : l = ghLit ++ r1 := stripLit_sound hs1
                have e2 : r1 = r1.takeWhile (· ≠ '/') ++ r1.dropWhile (· ≠ '/') :=
                  (List.takeWhile_append_dropWhile _ _).symm
                have e3 : r1.dropWhile (· ≠ '/') = '/' :: r3 := chompSlash_sound hc
                have e4 : r3 = r3.takeWhile (· ≠ '/') ++ r3.dropWhile (· ≠ '/') :=
                  (List.takeWhile_append_dropWhile _ _).symm
                have e5 : r3.dropWhile (· ≠ '/') = pullLit ++ r5 := stripLit_sound hs2
                have e6 : r5 = r5.takeWhile Char.isDigit ++ r5.dropWhile Char.isDigit :=
                  (List.takeWhile_append_dropWhile _ _).symm
                rw [e1]
                conv_lhs => rw [e2, e3, e4, e5, e6]
                simp [List.append_assoc]
              · intro hcon
                rw [← List.isEmpty_iff] at hcon
                exact ho hcon
              · intro c hcmem
                have := List.mem_takeWhile_imp hcmem
                simpa using this
              · intro hcon
                rw [← List.isEmpty_iff] at hcon
                exact hrp hcon
              · intro c hcmem
                have := List.mem_takeWhile_imp hcmem
                simpa using this
              · intro hcon
                rw [← List.isEmpty_iff] at hcon
                exact hds hcon
              · intro c hcmem
                exact List.mem_takeWhile_imp hcmem

/-- Completeness of the anchored URL match: the pattern's decomposition is
matched (the digit capture extends maximally into the remainder). -/
theorem matchGhAt_complete {o r ds tail : List Char}
    (ho : o ≠ []) (ho' : ∀ c ∈ o, c ≠ '/') (hr : r ≠ []) (hr' : ∀ c ∈ r, c ≠ '/')
    (hds : ds ≠ []) (hds' : ∀ c ∈ ds, c.isDigit) :
    matchGhAt (ghLit ++ o ++ ['/'] ++ r ++ pullLit ++ ds ++ tail) =
      some (o, r, ds ++ tail.takeWhile Char.isDigit) := by
  have hassoc : ghLit ++ o ++ ['/'] ++ r ++ pullLit ++ ds ++ tail =
      ghLit ++ (o ++ '/' :: (r ++ (pullLit ++ (ds ++ tail)))) := by
    simp [List.append_assoc]
  have hpull : pullLit = '/' :: "pull/".toList := rfl
  have htw1 : (o ++ '/' :: (r ++ (pullLit ++ (ds ++ tail)))).takeWhile (· ≠ '/') = o := by
    rw [takeWhile_app_of_all _ (fun c hc => by simpa using ho' c hc)]
    simp [List.takeWhile_cons]
  have hdw1 : (o ++ '/' :: (r ++ (pullLit ++ (ds ++ tail)))).dropWhile (· ≠ '/') =
      '/' :: (r ++ (pullLit ++ (ds ++ tail))) := by
    rw [dropWhile_app_of_all _ (fun c hc => by simpa using ho' c hc)]
    simp [List.dropWhile_cons]
  have htw2 : (r ++ (pullLit ++ (ds ++ tail))).takeWhile (· ≠ '/') = r := by
    rw [takeWhile_app_of_all _ (fun c hc => by simpa using hr' c hc)]
    rw [hpull]
    simp [List.takeWhile_cons]
  have hdw2 : (r ++ (pullLit ++ (ds ++ tail))).dropWhile (· ≠ '/') =
      pullLit ++ (ds ++ tail) := by
    rw [dropWhile_app_of_all _ (fun c hc => by simpa using hr' c hc)]
    rw [hpull]
    simp [List.dropWhile_cons]
  have htw3 : (ds ++ tail).takeWhile Char.isDigit = ds ++ tail.takeWhile Char.isDigit :=
    takeWhile_app_of_all _ hds'
  have hoe : o.isEmpty = false := by
    cases o with
    | nil => exact absurd rfl ho
    | cons a as => rfl
  have hre : r.isEmpty = false := by
    cases r with
    | nil => exact absurd rfl hr
    | cons a as => rfl
  have hdse : (ds ++ tail.takeWhile Char.isDigit).isEmpty = false := by
    cases ds with
    | nil => exact absurd rfl hds
    | cons a as => rfl
  unfold matchGhAt
  rw [hassoc, stripLit_self]
  simp only [Option.bind]
  rw [htw1, hdw1]
  simp only [hoe, Bool.false_eq_true, if_false]
  have hch : chompSlash ('/' :: (r ++ (pullLit ++ (ds ++ tail)))) =
      some (r ++ (pullLit ++ (ds ++ tail))) := by simp [chompSlash]
  rw [hch]
  simp only [Option.bind]
  rw [htw2, hdw2]
  simp only [hre, Bool.false_eq_true, if_false]
  rw [stripLit_self]
  simp only [Option.bind]
  rw [htw3]
  simp only [hdse, Bool.false_eq_true, if_false]

theorem matchGhAt_nil : matchGhAt [] = none := by decide

theorem findGh_sound : ∀ {l : List Char} {res}, findGh l = some res →
    ∃ k, matchGhAt (l.drop k) = some res := by
  intro l
  induction l with
  | nil => intro res h; exact absurd h (by simp [findGh])
  | cons c cs ih =>
    intro res h
    unfold findGh at h
    cases hm : matchGhAt (c :: cs) with
    | none =>
      rw [hm] at h
      simp only [Option.elim] at h
      obtain ⟨k, hk⟩ := ih h
      exact ⟨k + 1, by simpa using hk⟩
    | some res' =>
      rw [hm] at h
      simp only [Option.elim] at h
      cases h
      exact ⟨0, by simpa using hm⟩

theorem findGh_complete : ∀ {l : List Char} {k : Nat} {res},
    matchGhAt (l.drop k) = some res → ∃ res', findGh l = some res' := by
  intro l
  induction l with
  | nil =>
    intro k res h
    rw [List.drop_nil] at h
    rw [matchGhAt_nil] at h
    exact absurd h (by simp)
  | cons c cs ih =>
    intro k res h
    cases hm : matchGhAt (c :: cs) with
    | some res2 =>
      refine ⟨res2, ?_⟩
      unfold findGh
      rw [hm]
      simp [Option.elim]
    | none =>
      cases k with
      | zero =>
        rw [List.drop_zero] at h
        exact absurd h (by simp [hm])
      | succ k' =>
        rw [List.drop_succ_cons] at h
        obtain ⟨res', hres'⟩ := ih h
        refine ⟨res', ?_⟩
        unfold findGh
        rw [hm]
        simpa [Option.elim] using hres'

theorem ghBounded_all : ∀ {l : List Char}, ghBounded l = true →
    ∀ {k : Nat} {o r ds : List Char}, matchGhAt (l.drop k) = some (o, r, ds) →
      digitsVal ds < 4294967296 := by
  intro l
  induction l with
  | nil =>
    intro _ k o r ds h
    rw [List.drop_nil] at h
    rw [matchGhAt_nil] at h
    exact absurd h (by simp)
  | cons c cs ih =>
    intro hb k o r ds h
    unfold ghBounded at hb
    rw [Bool.and_eq_true] at hb
    cases k with
    | zero =>
      rw [List.drop_zero] at h
      have h1 := hb.1
      rw [h] at h1
      simp only [Option.elim] at h1
      exact of_decide_eq_true h1
    | succ k' =>
      rw [List.drop_succ_cons] at h
      exact ih hb.2 h

/-- C5 counterexample: the claim says `parse_github_url` succeeds exactly on
URLs matching `.../<owner>/<repo>/pull/<number>` with a digits-only number
and that every other input fails with the invalid-format error.  But the
code demands the literal `github.com/` before the owner — the GitLab URL
matches the claimed shape yet fails — and a shape-matching URL whose digits
overflow `u32` fails with a propagated parse error, not the invalid-format
one. -/
theorem claim_C5_cex :
    UrlShapeSpec "https://gitlab.com/a/b/pull/5".toList ∧
    parse_github_url "https://gitlab.com/a/b/pull/5".toList = .error .invalidFormat ∧
    UrlShapeSpec "https://github.com/a/b/pull/4294967296".toList ∧
    parse_github_url "https://github.com/a/b/pull/4294967296".toList =
      .error .numberOverflow := by
  refine ⟨?_, by decide, ?_, by decide⟩
  · exact ⟨"https://gitlab.com/".toList, "a".toList, "b".toList, "5".toList, [],
      by decide, by decide, by decide, by decide, by decide, by decide, by decide⟩
  · exact ⟨"https://github.com/".toList, "a".toList, "b".toList,
      "4294967296".toList, [], by decide, by decide, by decide, by decide, by decide,
      by decide, by decide⟩

/-- C5 amended: on inputs whose every potential regex match captures a
number below `2^32`, `parse_github_url` succeeds exactly on strings
containing a substring `github.com/<owner>/<repo>/pull/<digits>` (owner and
repo non-empty and slash-free, digits non-empty); a successful parse
returns the components of such a decomposition with the returned number the
value of the captured digit run, and the invalid-format error is returned
exactly on strings with no such substring (an in-shape number at or above
`2^32` instead fails with the propagated numeric parse error, as the
counterexample shows). -/
theorem claim_C5_amended (s : List Char) (H : ghBounded s = true) :
    ((∃ res, parse_github_url s = .ok res) ↔ GhShape s) ∧
    (∀ o r n, parse_github_url s = .ok (o, r, n) →
      ∃ pre ds post, GhParts s pre o r ds post ∧ parseU32 ds = some n) ∧
    (parse_github_url s = .error .invalidFormat ↔ ¬ GhShape s) := by
  have hsound : ∀ o r ds, findGh s = some (o, r, ds) →
      (∃ pre post, GhParts s pre o r ds post) ∧ parseU32 ds = some (digitsVal ds) := by
    intro o r ds h
    obtain ⟨k, hk⟩ := findGh_sound h
    obtain ⟨post, heq, ho, ho', hr, hr', hds, hds'⟩ := matchGhAt_sound hk
    have hval : digitsVal ds < 4294967296 := ghBounded_all H hk
    constructor
    · refine ⟨s.take k, post, ?_, ho, ho', hr, hr', hds, hds'⟩
      conv_lhs => rw [← List.take_append_drop k s, heq]
      simp [List.append_assoc]
    · simp [parseU32, hval]
  have hcomplete : GhShape s → ∃ res, findGh s = some res := by
    rintro ⟨pre, o, r, ds, post, heq, ho, ho', hr, hr', hds, hds'⟩
    have hdrop : s.drop pre.length = ghLit ++ o ++ ['/'] ++ r ++ pullLit ++ ds ++ post := by
      have heq' : s = pre ++ (ghLit ++ o ++ ['/'] ++ r ++ pullLit ++ ds ++ post) := by
        rw [heq]
        simp [List.append_assoc]
      rw [heq', List.drop_left]
    have hm := @matchGhAt_complete o r ds post ho ho' hr hr' hds hds'
    rw [← hdrop] at hm
    exact findGh_complete hm
  have hok : ∀ res, findGh s = some res →
      parse_github_url s = .ok (res.1, res.2.1, digitsVal res.2.2) := by
    intro res h
    obtain ⟨res1, res2, res3⟩ := res
    have := (hsound res1 res2 res3 h).2
    unfold parse_github_url
    rw [h]
    simp only [Option.elim]
    rw [this]
  refine ⟨⟨?_, ?_⟩, ?_, ⟨?_, ?_⟩⟩
  · rintro ⟨res, hres⟩
    unfold parse_github_url at hres
    cases hf : findGh s with
    | none =>
      rw [hf] at hres
      exact absurd hres (by simp [Option.elim])
    | some res' =>
      obtain ⟨o, r, ds⟩ := res'
      obtain ⟨⟨pre, post, hparts⟩, _⟩ := hsound o r ds hf
      exact ⟨pre, o, r, ds, post, hparts⟩
  · intro hshape
    obtain ⟨res, hres⟩ := hcomplete hshape
    exact ⟨(res.1, res.2.1, digitsVal res.2.2), hok res hres⟩
  · intro o r n hres
    cases hf : findGh s with
    | none =>
      unfold parse_github_url at hres
      rw [hf] at hres
      exact absurd hres (by simp [Option.elim])
    | some res' =>
      obtain ⟨o', r', ds'⟩ := res'
      have h1 := hok (o', r', ds') hf
      rw [hres] at h1
      have h2 : o = o' ∧ r = r' ∧ n = digitsVal ds' := by
        injection h1 with h3
        exact ⟨congrArg Prod.fst h3, congrArg (fun t => t.2.1) h3,
          congrArg (fun t => t.2.2) h3⟩
      obtain ⟨ho2, hr2, hn2⟩ := h2
      subst ho2
      subst hr2
      subst hn2
      obtain ⟨⟨pre, post, hparts⟩, hp⟩ := hsound o r ds' hf
      exact ⟨pre, ds', post, hparts, hp⟩
  · intro hres hshape
    obtain ⟨res, hres2⟩ := hcomplete hshape
    rw [hok res hres2] at hres
    exact Except.noConfusion hres
  · intro hnshape
    cases hf : findGh s with
    | none =>
      unfold parse_github_url
      rw [hf]
      simp [Option.elim]
    | some res' =>
      obtain ⟨o, r, ds⟩ := res'
      obtain ⟨⟨pre, post, hparts⟩, _⟩ := hsound o r ds hf
      exact absurd ⟨pre, o, r, ds, post, hparts⟩ hnshape

/-- C5 amended witness: a well-formed URL with a small number satisfies the
bound, parses successfully, and exhibits the shape. -/
theorem claim_C5_amended_witness :
    ghBounded "https://github.com/me/repo/pull/42".toList = true ∧
    GhShape "https://github.com/me/repo/pull/42".toList :=
  ⟨by decide,
    (claim_C5_amended "https://github.com/me/repo/pull/42".toList (by decide)).1.mp
      ⟨("me".toList, "repo".toList, 42), by decide⟩⟩

end StackPR
